import Mathlib

set_option autoImplicit false

/-!
Verification of the Worker / WorkerPool / PromiseMap subsystem of the
`vscode-php-codesniffer` extension, shallowly embedded in Lean.

The embedding follows the current source files:
* `src/common/promise-map.ts` (`PromiseMap`)
* `src/phpcs-report/worker-pool.ts` (`WorkerPool`)
* `src/phpcs-report/worker.ts` (`Worker`, `PHPCSError`)
* `src/phpcs-report/response.ts` (`Response.fromRaw`)

Callbacks (promise `resolve` / `reject` functions) are represented by
numeric identifiers; invoking a callback is modelled by emitting an
event carrying that identifier, so that "which continuation was invoked
with what" is observable in the model.
-/

namespace PhpcsSpec

deriving instance DecidableEq for Except

/-! ## PromiseMap (`src/common/promise-map.ts`)

The JS class keeps a `Map<string, MapEntry>`; we model it as an
association list in insertion order, which matches the iteration order
of a JS `Map` (`set` on an existing key updates the entry in place and
keeps its position; a new key is appended at the end; `delete` removes
the pair).
-/

/-- The reasons used to reject promises in the modelled subsystem:
`PromiseMapReplacementError` and vscode's `CancellationError`. -/
inductive PMReason where
  | replaced
  | cancellation
  deriving DecidableEq, Repr

/-- An observable callback invocation: `resolved cb args` models calling the
`resolve` callback with identifier `cb` on payload `args` (a worker id in the
pool), `rejected cb r` models calling the `reject` callback with reason `r`. -/
inductive PMEvent where
  | resolved (cb : Nat) (args : Nat)
  | rejected (cb : Nat) (reason : PMReason)
  deriving DecidableEq, Repr

/-- A `MapEntry` of `promise-map.ts`: the two callbacks and the data. -/
structure PMEntry (D : Type) where
  resolveCb : Nat
  rejectCb : Nat
  data : D
  deriving DecidableEq, Repr

/-- The `PromiseMap` state: keyed entries in insertion order. -/
abbrev PromiseMap (D : Type) : Type := List (String × PMEntry D)

section PromiseMapOps

variable {D : Type}

/-- `PromiseMap.keys` — the keys in insertion order. -/
def pmKeys (m : PromiseMap D) : List String := m.map (·.1)

/-- Lookup of the entry stored under a key (`this.map.get(key)`). -/
def pmGet (m : PromiseMap D) (k : String) : Option (PMEntry D) :=
  match m with
  | [] => none
  | p :: ps => if p.1 == k then some p.2 else pmGet ps k

/-- `PromiseMap.has`. -/
def pmHas (m : PromiseMap D) (k : String) : Bool := (pmGet m k).isSome

/-- `PromiseMap.getData`. -/
def pmGetData (m : PromiseMap D) (k : String) : Option D :=
  (pmGet m k).map (·.data)

/-- Overwrite the entry stored under a key, in place (a JS `Map` keeps the
position of an updated key). -/
def pmReplace (k : String) (e : PMEntry D) : PromiseMap D → PromiseMap D
  | [] => []
  | p :: ps => if p.1 == k then (k, e) :: ps else p :: pmReplace k e ps

/-- `PromiseMap.set`: if the key is absent the entry is inserted; otherwise
the existing entry's `reject` is invoked with `PromiseMapReplacementError`
and the entry is overwritten in place (keeping its map position). The
returned event list holds the callback invocations performed by the call. -/
def pmSet (m : PromiseMap D) (k : String) (rcb jcb : Nat) (d : D) :
    PromiseMap D × List PMEvent :=
  match pmGet m k with
  | none => (m ++ [(k, ⟨rcb, jcb, d⟩)], [])
  | some e =>
      (pmReplace k ⟨rcb, jcb, d⟩ m, [.rejected e.rejectCb .replaced])

/-- Remove the pair stored under a key (`this.map.delete(key)`). -/
def pmErase (m : PromiseMap D) (k : String) : PromiseMap D :=
  m.filter (fun p => p.1 != k)

/-- `PromiseMap.resolve`: invoke the entry's `resolve` with the given
arguments and delete the entry; `none` models the thrown
`'No promise to resolve.'` error when the key is absent. -/
def pmResolve (m : PromiseMap D) (k : String) (args : Nat) :
    Option (PromiseMap D × PMEvent) :=
  match pmGet m k with
  | none => none
  | some e => some (pmErase m k, .resolved e.resolveCb args)

/-- `PromiseMap.reject`: invoke the entry's `reject` with the given reason
and delete the entry; `none` models the thrown `'No promise to reject.'`
error when the key is absent. -/
def pmReject (m : PromiseMap D) (k : String) (r : PMReason) :
    Option (PromiseMap D × PMEvent) :=
  match pmGet m k with
  | none => none
  | some e => some (pmErase m k, .rejected e.rejectCb r)

end PromiseMapOps

section PromiseMapLemmas

variable {D : Type}

theorem pmKeys_replace (m : PromiseMap D) (k : String) (e : PMEntry D) :
    pmKeys (pmReplace k e m) = pmKeys m := by
  induction m with
  | nil => rfl
  | cons p ps ih =>
      simp only [pmReplace]
      by_cases hk : p.1 == k
      · simp only [hk, if_pos, pmKeys, List.map_cons]
        rw [beq_iff_eq.mp hk]
      · simp only [hk, if_neg, Bool.false_eq_true, not_false_iff, pmKeys,
          List.map_cons] at *
        rw [ih]

theorem pmKeys_set_of_mem (m : PromiseMap D) (k : String) (e : PMEntry D)
    (rcb jcb : Nat) (d : D) (h : pmGet m k = some e) :
    pmKeys (pmSet m k rcb jcb d).1 = pmKeys m := by
  simp only [pmSet, h]
  exact pmKeys_replace m k ⟨rcb, jcb, d⟩

theorem pmGet_replace_self (m : PromiseMap D) (k : String) (e e' : PMEntry D)
    (h : pmGet m k = some e) :
    pmGet (pmReplace k e' m) k = some e' := by
  induction m with
  | nil => simp [pmGet] at h
  | cons p ps ih =>
      simp only [pmGet, pmReplace] at *
      by_cases hk : p.1 == k
      · simp [hk, pmGet]
      · simp only [hk, Bool.false_eq_true, if_neg, not_false_iff, pmGet] at *
        exact ih h

theorem pmGet_set_self (m : PromiseMap D) (k : String)
    (rcb jcb : Nat) (d : D) :
    pmGet (pmSet m k rcb jcb d).1 k = some ⟨rcb, jcb, d⟩ := by
  match hg : pmGet m k with
  | none =>
      simp only [pmSet, hg]
      induction m with
      | nil => simp [pmGet]
      | cons p ps ih =>
          simp only [pmGet] at hg ⊢
          by_cases hk : p.1 == k
          · simp [hk] at hg
          · simp only [hk, Bool.false_eq_true, if_neg, not_false_iff,
              List.cons_append] at *
            exact ih hg
  | some e =>
      simp only [pmSet, hg]
      exact pmGet_replace_self m k e ⟨rcb, jcb, d⟩ hg

theorem pmKeys_set_subset (m : PromiseMap D) (k k' : String)
    (rcb jcb : Nat) (d : D) (h : k' ∈ pmKeys m) :
    k' ∈ pmKeys (pmSet m k rcb jcb d).1 := by
  match hg : pmGet m k with
  | none =>
      simp only [pmSet, hg, pmKeys, List.map_append, List.mem_append]
      exact Or.inl h
  | some e =>
      rw [pmKeys_set_of_mem m k e rcb jcb d hg]
      exact h

theorem pmResolve_emits (m : PromiseMap D) (k : String) (args : Nat)
    (e : PMEntry D) (h : pmGet m k = some e) :
    pmResolve m k args = some (pmErase m k, .resolved e.resolveCb args) := by
  simp [pmResolve, h]

theorem pmReject_emits (m : PromiseMap D) (k : String) (r : PMReason)
    (e : PMEntry D) (h : pmGet m k = some e) :
    pmReject m k r = some (pmErase m k, .rejected e.rejectCb r) := by
  simp [pmReject, h]

end PromiseMapLemmas

/-- C3: when key `k` already holds an entry `e`, `set` synchronously rejects
`e` with the distinguishable replacement error and nothing else, overwrites
the entry with the new callbacks and data, the new registration is still
pending and can later be resolved normally; and no operation ever removes an
entry without invoking its `resolve` or `reject` (`set` removes nothing,
`resolve`/`reject` invoke the removed entry's callback). -/
theorem promiseMap_set_replaces_and_never_drops
    {D : Type} (m : PromiseMap D) (k : String) (e : PMEntry D)
    (rcb jcb : Nat) (d : D) (h : pmGet m k = some e) :
    (pmSet m k rcb jcb d).2 = [.rejected e.rejectCb .replaced] ∧
    pmGet (pmSet m k rcb jcb d).1 k = some ⟨rcb, jcb, d⟩ ∧
    pmHas (pmSet m k rcb jcb d).1 k = true ∧
    (∀ args, pmResolve (pmSet m k rcb jcb d).1 k args =
      some (pmErase (pmSet m k rcb jcb d).1 k, .resolved rcb args)) ∧
    (∀ k', k' ∈ pmKeys m → k' ∈ pmKeys (pmSet m k rcb jcb d).1) ∧
    (∀ (m' : PromiseMap D) (k' : String) (args : Nat) (e' : PMEntry D),
      pmGet m' k' = some e' →
      pmResolve m' k' args = some (pmErase m' k', .resolved e'.resolveCb args)) ∧
    (∀ (m' : PromiseMap D) (k' : String) (r : PMReason) (e' : PMEntry D),
      pmGet m' k' = some e' →
      pmReject m' k' r = some (pmErase m' k', .rejected e'.rejectCb r)) := by
  refine ⟨by simp [pmSet, h], pmGet_set_self m k rcb jcb d, ?_, ?_,
    fun k' hk' => pmKeys_set_subset m k k' rcb jcb d hk',
    fun m' k' args e' h' => pmResolve_emits m' k' args e' h',
    fun m' k' r e' h' => pmReject_emits m' k' r e' h'⟩
  · simp [pmHas, pmGet_set_self m k rcb jcb d]
  · intro args
    simp [pmResolve, pmGet_set_self m k rcb jcb d]

/-- Witness for C3 at a concrete map. -/
theorem promiseMap_set_replaces_and_never_drops_witness :
    pmGet (D := Nat) [("k", ⟨1, 2, 7⟩)] "k" = some ⟨1, 2, 7⟩ ∧
    (pmSet (D := Nat) [("k", ⟨1, 2, 7⟩)] "k" 3 4 8).2 =
      [.rejected 2 .replaced] := by
  refine ⟨by decide, ?_⟩
  exact (promiseMap_set_replaces_and_never_drops [("k", ⟨1, 2, 7⟩)] "k"
    ⟨1, 2, 7⟩ 3 4 8 (by decide)).1

/-- C10: replacing the pending entry under key `k` leaves the iteration
order of `keys()` unchanged — the replacement keeps the displaced
registration's queue position. -/
theorem promiseMap_set_preserves_key_order
    {D : Type} (m : PromiseMap D) (k : String) (e : PMEntry D)
    (rcb jcb : Nat) (d : D) (h : pmGet m k = some e) :
    pmKeys (pmSet m k rcb jcb d).1 = pmKeys m :=
  pmKeys_set_of_mem m k e rcb jcb d h

/-- Witness for C10 at a concrete two-entry map. -/
theorem promiseMap_set_preserves_key_order_witness :
    pmGet (D := Nat) [("a", ⟨1, 2, 0⟩), ("b", ⟨3, 4, 0⟩)] "a" =
      some ⟨1, 2, 0⟩ ∧
    pmKeys (pmSet (D := Nat) [("a", ⟨1, 2, 0⟩), ("b", ⟨3, 4, 0⟩)]
      "a" 5 6 9).1 = ["a", "b"] := by
  refine ⟨by decide, ?_⟩
  rw [promiseMap_set_preserves_key_order
    [("a", ⟨1, 2, 0⟩), ("b", ⟨3, 4, 0⟩)] "a" ⟨1, 2, 0⟩ 5 6 9 (by decide)]
  decide

/-! ## WorkerPool (`src/phpcs-report/worker-pool.ts`)

Workers are identified by numbers and carry an `isActive` flag; the pool
additionally keeps the `inUse` set of assigned workers, the wait map, and —
to model vscode cancellation tokens — a registry of attached (not yet
disposed) cancellation listeners and the set of tokens whose cancellation
has been requested.  Firing a token sets its flag and then runs its
listeners in attach order, skipping listeners disposed meanwhile.
-/

/-- The `PromiseMapData` of `worker-pool.ts`: the optional cancellation
token of a queued wait and the listener attached for it. -/
structure PoolData where
  token : Option Nat
  listener : Option Nat
  deriving DecidableEq, Repr

/-- The state of a `WorkerPool` together with the cancellation-token
environment it observes. -/
structure PoolState where
  /-- `(worker id, isActive)` in pool order. -/
  workers : List (Nat × Bool)
  /-- The `inUse` set of assigned worker ids. -/
  inUse : List Nat
  /-- The queued waits (`waitMap`). -/
  waitMap : PromiseMap PoolData
  /-- Attached cancellation listeners `(listener id, token id, key)`,
  in attach order. -/
  attached : List (Nat × Nat × String)
  /-- Tokens whose cancellation has been requested. -/
  cancelled : List Nat
  /-- Fresh listener-id counter. -/
  nextListener : Nat
  deriving DecidableEq, Repr

/-- `token.isCancellationRequested`. -/
def isCancellationRequested (s : PoolState) (t : Nat) : Bool :=
  s.cancelled.contains t

/-- Whether the given worker is active (`worker.isActive`). -/
def workerIsActive (s : PoolState) (w : Nat) : Bool :=
  match s.workers.find? (fun p => p.1 == w) with
  | some p => p.2
  | none => false

/-- `WorkerPool.getFirstAvailable`: the first worker that is neither active
nor in the `inUse` set. -/
def getFirstAvailable (s : PoolState) : Option Nat :=
  (s.workers.find? (fun p => !p.2 && !(s.inUse.contains p.1))).map (·.1)

/-- `cancellationListener.dispose()`. -/
def disposeListener (s : PoolState) (l : Nat) : PoolState :=
  { s with attached := s.attached.filter (fun a => a.1 != l) }

/-- `WorkerPool.waitForAvailable`: resolve immediately with the first
available worker (adding it to `inUse`), or attach a cancellation listener
(when a token was given) and queue the wait in the map. -/
def waitForAvailable (s : PoolState) (key : String) (token : Option Nat)
    (rcb jcb : Nat) : PoolState × List PMEvent :=
  match getFirstAvailable s with
  | some w => ({ s with inUse := s.inUse ++ [w] }, [.resolved rcb w])
  | none =>
      let lid : Option Nat := token.map (fun _ => s.nextListener)
      let s1 :=
        match token with
        | some t =>
            { s with attached := s.attached ++ [(s.nextListener, t, key)],
                     nextListener := s.nextListener + 1 }
        | none => s
      let res := pmSet s1.waitMap key rcb jcb ⟨token, lid⟩
      ({ s1 with waitMap := res.1 }, res.2)

/-- `WorkerPool.onCancellation`: if a wait is pending under the key, dispose
the listener stored in its data and reject it with a `CancellationError`. -/
def onCancellation (s : PoolState) (key : String) : PoolState × List PMEvent :=
  match pmGetData s.waitMap key with
  | none => (s, [])
  | some d =>
      let s1 :=
        match d.listener with
        | some l => disposeListener s l
        | none => s
      match pmReject s1.waitMap key .cancellation with
      | some res => ({ s1 with waitMap := res.1 }, [res.2])
      | none => (s1, [])

/-- The scan of `WorkerPool.onWorkerActiveChange` over the pending keys:
give the worker to the first entry whose token is absent or not cancelled
(adding the worker to `inUse`), then stop. -/
def scanWaiters (s : PoolState) (w : Nat) :
    List String → PoolState × List PMEvent
  | [] => (s, [])
  | k :: ks =>
      match pmGetData s.waitMap k with
      | none => scanWaiters s w ks
      | some d =>
          let live :=
            match d.token with
            | none => true
            | some t => !(isCancellationRequested s t)
          if live then
            match pmResolve s.waitMap k w with
            | some res =>
                ({ s with inUse := s.inUse ++ [w], waitMap := res.1 },
                  [res.2])
            | none => (s, [])
          else scanWaiters s w ks

/-- `WorkerPool.onWorkerActiveChange`: nothing happens for an active worker;
otherwise the worker is removed from `inUse` and the pending keys are
scanned in registration order. -/
def onWorkerActiveChange (s : PoolState) (w : Nat) :
    PoolState × List PMEvent :=
  if workerIsActive s w then (s, [])
  else
    let s0 := { s with inUse := s.inUse.filter (fun x => x != w) }
    scanWaiters s0 w (pmKeys s0.waitMap)

/-- Run the listeners of a fired token over a snapshot of its attached
listeners, skipping the ones disposed by an earlier handler. -/
def fireGo (s : PoolState) : List (Nat × Nat × String) →
    PoolState × List PMEvent
  | [] => (s, [])
  | (lid, _, key) :: rest =>
      if s.attached.any (fun a => a.1 == lid) then
        let r1 := onCancellation s key
        let r2 := fireGo r1.1 rest
        (r2.1, r1.2 ++ r2.2)
      else fireGo s rest

/-- `CancellationTokenSource.cancel` for token `t`: record the cancellation,
then fire the listeners attached to `t` in attach order. -/
def fireToken (s : PoolState) (t : Nat) : PoolState × List PMEvent :=
  let s0 := { s with cancelled :=
      if s.cancelled.contains t then s.cancelled else s.cancelled ++ [t] }
  fireGo s0 (s0.attached.filter (fun a => a.2.1 == t))

/-- Set a worker's active flag (the worker spawning or finishing its
process). -/
def setWorkerActive (s : PoolState) (w : Nat) (b : Bool) : PoolState :=
  { s with workers := s.workers.map (fun p => if p.1 == w then (p.1, b) else p) }

/-- The externally triggered transitions of the pool system. -/
inductive PoolStep where
  /-- A caller invokes `waitForAvailable key token` with fresh callbacks. -/
  | wait (key : String) (token : Option Nat) (rcb jcb : Nat)
  /-- A cancellation token fires. -/
  | fire (t : Nat)
  /-- A worker's process closes: the worker becomes inactive and its
  completion callback (`onWorkerActiveChange`) runs. -/
  | free (w : Nat)
  /-- A worker starts executing and becomes active. -/
  | busy (w : Nat)
  deriving DecidableEq, Repr

/-- One transition of the pool system. -/
def poolStep (s : PoolState) : PoolStep → PoolState × List PMEvent
  | .wait key token rcb jcb => waitForAvailable s key token rcb jcb
  | .fire t => fireToken s t
  | .free w => onWorkerActiveChange (setWorkerActive s w false) w
  | .busy w => (setWorkerActive s w true, [])

/-- Run a list of transitions, accumulating the emitted events. -/
def poolRun (s : PoolState) : List PoolStep → PoolState × List PMEvent
  | [] => (s, [])
  | st :: sts =>
      let r1 := poolStep s st
      let r2 := poolRun r1.1 sts
      (r2.1, r1.2 ++ r2.2)

/-- The pool constructed by `new WorkerPool(capacity)`. -/
def mkPool (capacity : Nat) : PoolState :=
  { workers := (List.range capacity).map (fun i => (i, false)),
    inUse := [], waitMap := [], attached := [], cancelled := [],
    nextListener := 100 }

/-- Whether an event is a worker grant. -/
def isGrant : PMEvent → Bool
  | .resolved _ _ => true
  | .rejected _ _ => false

theorem pmResolve_shape {D : Type} (m : PromiseMap D) (k : String)
    (args : Nat) (res : PromiseMap D × PMEvent)
    (h : pmResolve m k args = some res) :
    ∃ cb, res.2 = .resolved cb args := by
  unfold pmResolve at h
  cases hg : pmGet m k with
  | none => rw [hg] at h; exact absurd h (by simp)
  | some e =>
      rw [hg] at h
      exact ⟨e.resolveCb, by cases h; rfl⟩

theorem scanWaiters_length_le_one (s : PoolState) (w : Nat)
    (ks : List String) : (scanWaiters s w ks).2.length ≤ 1 := by
  induction ks with
  | nil => simp [scanWaiters]
  | cons k ks ih =>
      unfold scanWaiters
      cases hd : pmGetData s.waitMap k with
      | none => exact ih
      | some d =>
          simp only []
          split
          · cases hr : pmResolve s.waitMap k w with
            | none => simp
            | some res => simp
          · exact ih

theorem scanWaiters_grants_worker (s : PoolState) (w : Nat)
    (ks : List String) (cb a : Nat)
    (h : PMEvent.resolved cb a ∈ (scanWaiters s w ks).2) : a = w := by
  induction ks with
  | nil => simp [scanWaiters] at h
  | cons k ks ih =>
      unfold scanWaiters at h
      cases hd : pmGetData s.waitMap k with
      | none => rw [hd] at h; exact ih h
      | some d =>
          rw [hd] at h
          simp only [] at h
          split at h
          · cases hr : pmResolve s.waitMap k w with
            | none => rw [hr] at h; simp at h
            | some res =>
                rw [hr] at h
                simp only [List.mem_singleton] at h
                obtain ⟨cb', hcb⟩ := pmResolve_shape s.waitMap k w res hr
                rw [← h] at hcb
                cases hcb
                rfl
          · exact ih h

theorem scanWaiters_all_cancelled (s : PoolState) (w : Nat)
    (ks : List String)
    (hc : ∀ k e, pmGet s.waitMap k = some e →
      ∃ t, e.data.token = some t ∧ isCancellationRequested s t = true) :
    scanWaiters s w ks = (s, []) := by
  induction ks with
  | nil => rfl
  | cons k ks ih =>
      unfold scanWaiters
      cases hd : pmGetData s.waitMap k with
      | none => exact ih
      | some d =>
          simp only []
          have hlive : (match d.token with
              | none => true
              | some t => !(isCancellationRequested s t)) = false := by
            unfold pmGetData at hd
            cases hg : pmGet s.waitMap k with
            | none => rw [hg] at hd; simp at hd
            | some e =>
                rw [hg] at hd
                simp only [Option.map_some'] at hd
                obtain ⟨t, ht, hreq⟩ := hc k e hg
                cases hd
                rw [ht]
                simp [hreq]
          rw [hlive]
          simp only [Bool.false_eq_true, if_false]
          exact ih

/-- C1: when a worker becomes idle, `onWorkerActiveChange` grants it to at
most one pending waiter (every grant event in the transition names that
worker, and there is at most one such event); and when every pending entry
carries an already-cancelled token, no waiter is granted, the wait map is
untouched and the worker ends up outside the `inUse` set, i.e. stays
available for the next fast-path request. -/
theorem workerPool_grants_at_most_one_per_transition
    (s : PoolState) (w : Nat) :
    ((onWorkerActiveChange s w).2.filter isGrant).length ≤ 1 ∧
    (∀ cb a, PMEvent.resolved cb a ∈ (onWorkerActiveChange s w).2 → a = w) ∧
    (workerIsActive s w = false →
      (∀ k e, pmGet s.waitMap k = some e →
        ∃ t, e.data.token = some t ∧ isCancellationRequested s t = true) →
      (onWorkerActiveChange s w).2 = [] ∧
      (onWorkerActiveChange s w).1.waitMap = s.waitMap ∧
      w ∉ (onWorkerActiveChange s w).1.inUse) := by
  unfold onWorkerActiveChange
  by_cases hact : workerIsActive s w
  · rw [if_pos hact]
    refine ⟨by simp, by simp, fun h _ => absurd hact (by simp [h])⟩
  · rw [if_neg hact]
    set s0 : PoolState := { s with inUse := s.inUse.filter (fun x => x != w) }
      with hs0
    refine ⟨?_, ?_, ?_⟩
    · calc ((scanWaiters s0 w (pmKeys s0.waitMap)).2.filter isGrant).length
          ≤ (scanWaiters s0 w (pmKeys s0.waitMap)).2.length :=
            List.length_filter_le _ _
        _ ≤ 1 := scanWaiters_length_le_one s0 w _
    · exact fun cb a h => scanWaiters_grants_worker s0 w _ cb a h
    · intro _ hc
      have hc0 : ∀ k e, pmGet s0.waitMap k = some e →
          ∃ t, e.data.token = some t ∧ isCancellationRequested s0 t = true := by
        intro k e hg
        exact hc k e hg
      rw [scanWaiters_all_cancelled s0 w _ hc0]
      refine ⟨rfl, rfl, ?_⟩
      intro hmem
      have := List.of_mem_filter hmem
      simp at this

/-- A concrete pool state for the C1 witness: one worker that has just
closed its process, and a single pending wait whose token `1` has already
been cancelled. -/
def c1State : PoolState :=
  { workers := [(0, false)], inUse := [0],
    waitMap := [("k", ⟨5, 6, ⟨some 1, some 100⟩⟩)],
    attached := [(100, 1, "k")], cancelled := [1], nextListener := 101 }

/-- Witness for C1: a capacity-one pool whose only pending wait carries a
cancelled token; freeing the worker grants nobody and leaves it available. -/
theorem workerPool_grants_at_most_one_per_transition_witness :
    workerIsActive c1State 0 = false ∧
    (onWorkerActiveChange c1State 0).2 = [] ∧
    (onWorkerActiveChange c1State 0).1.waitMap = c1State.waitMap ∧
    0 ∉ (onWorkerActiveChange c1State 0).1.inUse := by
  refine ⟨by decide, ?_⟩
  refine (workerPool_grants_at_most_one_per_transition c1State 0).2.2
    (by decide) ?_
  intro k e hg
  simp only [c1State, pmGet] at hg
  by_cases hk : ("k" == k)
  · rw [if_pos hk] at hg
    cases hg
    exact ⟨1, rfl, by decide⟩
  · rw [if_neg hk] at hg
    cases hg

/-! ## Cancellation of queued waits (C2)

`waitForAvailable` attaches the cancellation listener *before* `pmSet`
queues the wait, and nothing disposes the listener of an entry displaced by
a later `set` under the same key: the stale listener stays attached to its
token.  `onCancellation` looks up whatever entry is *currently* pending
under the key and rejects it.
-/

/-- The resolve-callback identifiers currently registered in a wait map. -/
def pmResolveCbs {D : Type} (m : PromiseMap D) : List Nat :=
  m.map (fun p => p.2.resolveCb)

theorem mem_pmResolveCbs_of_get {D : Type} (m : PromiseMap D) (k : String)
    (e : PMEntry D) (h : pmGet m k = some e) :
    e.resolveCb ∈ pmResolveCbs m := by
  induction m with
  | nil => simp [pmGet] at h
  | cons p ps ih =>
      simp only [pmGet] at h
      by_cases hk : p.1 == k
      · rw [if_pos hk] at h
        cases h
        simp [pmResolveCbs]
      · rw [if_neg hk] at h
        simp only [pmResolveCbs, List.map_cons, List.mem_cons]
        exact Or.inr (ih h)

theorem pmResolveCbs_erase_sub {D : Type} (m : PromiseMap D) (k : String)
    (x : Nat) (h : x ∈ pmResolveCbs (pmErase m k)) : x ∈ pmResolveCbs m := by
  induction m with
  | nil => simp [pmErase, pmResolveCbs] at h
  | cons p ps ih =>
      simp only [pmErase, List.filter_cons] at h
      by_cases hk : p.1 == k
      · rw [show (p.1 != k) = false by simp [bne, hk]] at h
        simp only [Bool.false_eq_true, if_false] at h
        simp only [pmResolveCbs, List.map_cons, List.mem_cons]
        exact Or.inr (ih h)
      · rw [show (p.1 != k) = true by simp [bne, hk]] at h
        simp only [if_true] at h
        simp only [pmResolveCbs, List.map_cons, List.mem_cons] at h ⊢
        rcases h with h | h
        · exact Or.inl h
        · exact Or.inr (ih h)

theorem pmResolveCbs_replace_sub {D : Type} (m : PromiseMap D) (k : String)
    (e : PMEntry D) (x : Nat) (h : x ∈ pmResolveCbs (pmReplace k e m)) :
    x ∈ pmResolveCbs m ∨ x = e.resolveCb := by
  induction m with
  | nil => simp [pmReplace, pmResolveCbs] at h
  | cons p ps ih =>
      simp only [pmReplace] at h
      by_cases hk : p.1 == k
      · rw [if_pos hk] at h
        simp only [pmResolveCbs, List.map_cons, List.mem_cons] at h ⊢
        rcases h with h | h
        · exact Or.inr h
        · exact Or.inl (Or.inr h)
      · rw [if_neg hk] at h
        simp only [pmResolveCbs, List.map_cons, List.mem_cons] at h ⊢
        rcases h with h | h
        · exact Or.inl (Or.inl h)
        · rcases ih h with h' | h'
          · exact Or.inl (Or.inr h')
          · exact Or.inr h'

theorem pmResolveCbs_set_sub {D : Type} (m : PromiseMap D) (k : String)
    (rcb jcb : Nat) (d : D) (x : Nat)
    (h : x ∈ pmResolveCbs (pmSet m k rcb jcb d).1) :
    x ∈ pmResolveCbs m ∨ x = rcb := by
  unfold pmSet at h
  cases hg : pmGet m k with
  | none =>
      rw [hg] at h
      simp only [pmResolveCbs, List.map_append, List.mem_append,
        List.map_cons, List.map_nil, List.mem_singleton] at h
      rcases h with h | h
      · exact Or.inl h
      · exact Or.inr h
  | some e =>
      rw [hg] at h
      exact pmResolveCbs_replace_sub m k ⟨rcb, jcb, d⟩ x h

theorem pmSet_events_no_grant {D : Type} (m : PromiseMap D) (k : String)
    (rcb jcb : Nat) (d : D) (cb a : Nat) :
    PMEvent.resolved cb a ∉ (pmSet m k rcb jcb d).2 := by
  unfold pmSet
  cases hg : pmGet m k with
  | none => simp
  | some e => simp

theorem pmGet_erase_self {D : Type} (m : PromiseMap D) (k : String) :
    pmGet (pmErase m k) k = none := by
  induction m with
  | nil => rfl
  | cons p ps ih =>
      simp only [pmErase, List.filter_cons]
      by_cases hk : p.1 == k
      · rw [show (p.1 != k) = false by simp [bne, hk]]
        simp only [Bool.false_eq_true, if_false]
        exact ih
      · rw [show (p.1 != k) = true by simp [bne, hk]]
        simp only [if_true]
        simp only [pmGet, hk, Bool.false_eq_true, if_false]
        exact ih

theorem onCancellation_no_grant (s : PoolState) (key : String) (cb : Nat)
    (hcb : cb ∉ pmResolveCbs s.waitMap) :
    (∀ a, PMEvent.resolved cb a ∉ (onCancellation s key).2) ∧
    cb ∉ pmResolveCbs (onCancellation s key).1.waitMap := by
  unfold onCancellation
  cases hd : pmGetData s.waitMap key with
  | none => exact ⟨by simp, hcb⟩
  | some d =>
      simp only []
      have hw : (match d.listener with
          | some l => disposeListener s l
          | none => s).waitMap = s.waitMap := by
        cases d.listener <;> rfl
      cases hr : pmReject (match d.listener with
          | some l => disposeListener s l
          | none => s).waitMap key .cancellation with
      | none => exact ⟨by simp, by rw [hw] at *; exact hcb⟩
      | some res =>
          rw [hw] at hr
          unfold pmReject at hr
          cases hg : pmGet s.waitMap key with
          | none => rw [hg] at hr; exact absurd hr (by simp)
          | some e =>
              rw [hg] at hr
              cases hr
              refine ⟨by simp, ?_⟩
              intro hmem
              exact hcb (pmResolveCbs_erase_sub s.waitMap key cb hmem)

theorem fireGo_no_grant (cb : Nat) :
    ∀ (snap : List (Nat × Nat × String)) (s : PoolState),
    cb ∉ pmResolveCbs s.waitMap →
    (∀ a, PMEvent.resolved cb a ∉ (fireGo s snap).2) ∧
    cb ∉ pmResolveCbs (fireGo s snap).1.waitMap := by
  intro snap
  induction snap with
  | nil => exact fun s h => ⟨by simp [fireGo], h⟩
  | cons hd rest ih =>
      intro s hcb
      obtain ⟨lid, t, key⟩ := hd
      unfold fireGo
      by_cases hatt : s.attached.any (fun a => a.1 == lid)
      · rw [if_pos hatt]
        obtain ⟨h1, h2⟩ := onCancellation_no_grant s key cb hcb
        obtain ⟨h3, h4⟩ := ih (onCancellation s key).1 h2
        refine ⟨?_, h4⟩
        intro a hmem
        simp only [List.mem_append] at hmem
        rcases hmem with hmem | hmem
        · exact h1 a hmem
        · exact h3 a hmem
      · rw [if_neg hatt]
        exact ih s hcb

theorem scanWaiters_no_grant (cb w : Nat) :
    ∀ (ks : List String) (s : PoolState),
    cb ∉ pmResolveCbs s.waitMap →
    (∀ a, PMEvent.resolved cb a ∉ (scanWaiters s w ks).2) ∧
    cb ∉ pmResolveCbs (scanWaiters s w ks).1.waitMap := by
  intro ks
  induction ks with
  | nil => exact fun s h => ⟨by simp [scanWaiters], h⟩
  | cons k ks ih =>
      intro s hcb
      unfold scanWaiters
      cases hd : pmGetData s.waitMap k with
      | none => exact ih s hcb
      | some d =>
          simp only []
          split
          · cases hr : pmResolve s.waitMap k w with
            | none => exact ⟨by simp, hcb⟩
            | some res =>
                unfold pmResolve at hr
                cases hg : pmGet s.waitMap k with
                | none => rw [hg] at hr; exact absurd hr (by simp)
                | some e =>
                    rw [hg] at hr
                    cases hr
                    refine ⟨?_, ?_⟩
                    · intro a hmem
                      simp only [List.mem_singleton] at hmem
                      cases hmem
                      exact hcb (mem_pmResolveCbs_of_get s.waitMap k e hg)
                    · intro hmem
                      exact hcb (pmResolveCbs_erase_sub s.waitMap k cb hmem)
          · exact ih s hcb

theorem poolStep_no_grant (s : PoolState) (st : PoolStep) (cb : Nat)
    (hcb : cb ∉ pmResolveCbs s.waitMap)
    (hfresh : ∀ k tok rcb jcb, st = PoolStep.wait k tok rcb jcb → rcb ≠ cb) :
    (∀ a, PMEvent.resolved cb a ∉ (poolStep s st).2) ∧
    cb ∉ pmResolveCbs (poolStep s st).1.waitMap := by
  cases st with
  | wait key tok rcb jcb =>
      have hr : rcb ≠ cb := hfresh key tok rcb jcb rfl
      simp only [poolStep]
      unfold waitForAvailable
      cases hfa : getFirstAvailable s with
      | some w =>
          refine ⟨?_, hcb⟩
          intro a hmem
          simp only [List.mem_singleton] at hmem
          cases hmem
          exact hr rfl
      | none =>
          simp only []
          refine ⟨?_, ?_⟩
          · intro a hmem
            exact pmSet_events_no_grant _ key rcb jcb _ cb a hmem
          · intro hmem
            rcases pmResolveCbs_set_sub _ key rcb jcb _ cb hmem with h | h
            · cases tok <;> exact hcb h
            · exact hr h.symm
  | fire t =>
      simp only [poolStep]
      unfold fireToken
      exact fireGo_no_grant cb _ _ hcb
  | free w =>
      simp only [poolStep]
      unfold onWorkerActiveChange
      by_cases hact : workerIsActive (setWorkerActive s w false) w
      · rw [if_pos hact]
        exact ⟨by simp, hcb⟩
      · rw [if_neg hact]
        exact scanWaiters_no_grant cb w _ _ hcb
  | busy w => exact ⟨by simp [poolStep], hcb⟩

theorem poolRun_no_grant (cb : Nat) :
    ∀ (steps : List PoolStep) (s : PoolState),
    cb ∉ pmResolveCbs s.waitMap →
    (∀ st ∈ steps, ∀ k tok rcb jcb, st = PoolStep.wait k tok rcb jcb →
      rcb ≠ cb) →
    (∀ a, PMEvent.resolved cb a ∉ (poolRun s steps).2) ∧
    cb ∉ pmResolveCbs (poolRun s steps).1.waitMap := by
  intro steps
  induction steps with
  | nil => exact fun s h _ => ⟨by simp [poolRun], h⟩
  | cons st sts ih =>
      intro s hcb hfresh
      obtain ⟨h1, h2⟩ := poolStep_no_grant s st cb hcb
        (fun k tok rcb jcb he => hfresh st (by simp) k tok rcb jcb he)
      obtain ⟨h3, h4⟩ := ih (poolStep s st).1 h2
        (fun st' hm k tok rcb jcb he => hfresh st' (by simp [hm]) k tok rcb jcb he)
      unfold poolRun
      refine ⟨?_, h4⟩
      intro a hmem
      simp only [List.mem_append] at hmem
      rcases hmem with hmem | hmem
      · exact h1 a hmem
      · exact h3 a hmem

/-- The run refuting C2's last conjunct: a saturated capacity-one pool, a
wait `A` under key `"k"` with token `1`, a second wait `B` under the same
key with token `2` (displacing `A`), then token `1` fires. -/
def staleSteps : List PoolStep :=
  [ .wait "init" none 0 1,
    .busy 0,
    .wait "k" (some 1) 10 11,
    .wait "k" (some 2) 12 13,
    .fire 1 ]

/-- Counterexample to C2 as stated: the displaced wait `A`'s listener is
never disposed; when token `1` fires, `onCancellation` rejects the *newer*
wait `B` (reject callback `13`) with a Cancellation error even though `B`'s
own token `2` never fired — so a listener from a displaced earlier wait does
reject a newer wait pending under the same key. -/
theorem workerPool_stale_listener_rejects_newer_wait :
    (poolRun (mkPool 1) staleSteps).2 =
      [.resolved 0 0, .rejected 11 .replaced, .rejected 13 .cancellation] ∧
    isCancellationRequested (poolRun (mkPool 1) staleSteps).1 2 = false := by
  decide

/-- C2 (amended): when the cancellation listener attached for `key` fires
while a wait is pending under that key, that *currently pending* wait —
which, after a displacement, is the newer registration rather than the wait
the listener was created for — is rejected with a Cancellation error and
removed from the registry; and once a wait's resolve callback has left the
registry, no later sequence of transitions (worker frees, token firings,
fresh waits) ever grants it a worker, so in particular a cancelled wait is
never granted a worker even if one frees immediately afterwards in the same
tick. -/
theorem workerPool_cancellation_rejects_current_wait
    (s : PoolState) (key : String) (e : PMEntry PoolData)
    (h : pmGet s.waitMap key = some e) :
    ((onCancellation s key).2 = [.rejected e.rejectCb .cancellation] ∧
      pmGet (onCancellation s key).1.waitMap key = none) ∧
    (∀ (s' : PoolState) (steps : List PoolStep) (cb : Nat),
      cb ∉ pmResolveCbs s'.waitMap →
      (∀ st ∈ steps, ∀ k tok rcb jcb, st = PoolStep.wait k tok rcb jcb →
        rcb ≠ cb) →
      ∀ a, PMEvent.resolved cb a ∉ (poolRun s' steps).2) := by
  constructor
  · unfold onCancellation
    have hd : pmGetData s.waitMap key = some e.data := by
      simp [pmGetData, h]
    rw [hd]
    simp only []
    have hw : (match e.data.listener with
        | some l => disposeListener s l
        | none => s).waitMap = s.waitMap := by
      cases e.data.listener <;> rfl
    rw [hw, pmReject_emits s.waitMap key .cancellation e h]
    exact ⟨rfl, pmGet_erase_self s.waitMap key⟩
  · intro s' steps cb hcb hfresh
    exact (poolRun_no_grant cb steps s' hcb hfresh).1

/-- Witness for C2's amended theorem: the concrete state of `c1State` has a
pending entry under `"k"`; cancelling it rejects callback `6` and empties
the registry, and a subsequent worker-free grants nothing to callback `5`
once it is out of the registry. -/
theorem workerPool_cancellation_rejects_current_wait_witness :
    pmGet c1State.waitMap "k" = some ⟨5, 6, ⟨some 1, some 100⟩⟩ ∧
    (onCancellation c1State "k").2 = [.rejected 6 .cancellation] ∧
    (∀ a, PMEvent.resolved 5 a ∉
      (poolRun (onCancellation c1State "k").1 [.free 0]).2) := by
  have hget : pmGet c1State.waitMap "k" = some ⟨5, 6, ⟨some 1, some 100⟩⟩ := by
    decide
  have h := workerPool_cancellation_rejects_current_wait c1State "k"
    ⟨5, 6, ⟨some 1, some 100⟩⟩ hget
  refine ⟨hget, h.1.1, ?_⟩
  refine h.2 (onCancellation c1State "k").1 [.free 0] 5 (by decide) ?_
  intro st hm k tok rcb jcb he
  simp only [List.mem_singleton] at hm
  rw [hm] at he
  cases he

/-! ## Response parsing (`src/phpcs-report/response.ts`)

`Response.fromRaw` parses the JSON report and transforms it per report
type.  We embed the post-`JSON.parse` stage: the raw report is the already
parsed object shape. -/

/-- The type of PHPCS report requested (`ReportType`). -/
inductive ReportTypeM where
  | diagnostic
  | codeAction
  | format
  deriving DecidableEq, Repr

/-- A zero-based range as found in the raw JSON. -/
structure RawRange where
  startLine : Nat
  startCharacter : Nat
  endLine : Nat
  endCharacter : Nat
  deriving DecidableEq, Repr

/-- A raw diagnostic entry of the JSON report. -/
structure RawDiagnostic where
  range : RawRange
  severity : Int
  message : String
  code : String
  source : String
  deriving DecidableEq, Repr

/-- A raw code action entry: `diagnostic` is the index of the originating
diagnostic. -/
structure RawCodeAction where
  title : String
  kind : String
  diagnostic : Nat
  deriving DecidableEq, Repr

/-- A raw text edit entry. -/
structure RawTextEdit where
  range : RawRange
  newContent : String
  deriving DecidableEq, Repr

/-- One file of the raw JSON report; only the fields relevant to the
requested report type are populated by the tool. -/
structure RawFile where
  filename : String
  diagnostics : List RawDiagnostic
  codeActions : List RawCodeAction
  textEdits : List RawTextEdit
  content : String
  deriving DecidableEq, Repr

/-- The raw JSON report: `{ files: [...] }`. -/
structure RawReport where
  files : List RawFile
  deriving DecidableEq, Repr

/-- The two recognized severities. -/
inductive DiagnosticSeverityM where
  | error
  | warning
  deriving DecidableEq, Repr

/-- A parsed diagnostic as constructed by the Diagnostic branch. -/
structure DiagnosticM where
  range : RawRange
  message : String
  severity : DiagnosticSeverityM
  code : String
  source : String
  deriving DecidableEq, Repr

/-- A parsed code action: the title, the raw `diagnostic` index, and the
entry of `report.diagnostics` at that index at the time the action was
processed (`none` models the JS `undefined` of an out-of-range access). -/
structure CodeActionM where
  title : String
  diagnostic : Nat
  linked : Option DiagnosticM
  deriving DecidableEq, Repr

/-- The Diagnostic report payload. -/
structure DiagnosticReportM where
  diagnostics : List DiagnosticM
  codeActions : List CodeActionM
  deriving DecidableEq, Repr

/-- The severity sanitization switch: `0` is an error, `1` a warning, any
other value drops the diagnostic (`continue`). -/
def convDiagnostic (d : RawDiagnostic) : Option DiagnosticM :=
  match d.severity with
  | 0 => some ⟨d.range, d.message, .error, d.code, d.source⟩
  | 1 => some ⟨d.range, d.message, .warning, d.code, d.source⟩
  | _ => none

/-- The code-action switch: only the `'quickfix'` kind is kept; the action
links `report.diagnostics[rawAction.diagnostic]`. -/
def convCodeAction (diags : List DiagnosticM) (a : RawCodeAction) :
    Option CodeActionM :=
  if a.kind = "quickfix" then
    some ⟨a.title, a.diagnostic, diags.get? a.diagnostic⟩
  else none

/-- Processing of one file of a Diagnostic report: diagnostics are appended
in order, then the file's code actions are resolved against the diagnostics
accumulated so far. -/
def processFile (acc : DiagnosticReportM) (f : RawFile) : DiagnosticReportM :=
  let ds := acc.diagnostics ++ f.diagnostics.filterMap convDiagnostic
  { diagnostics := ds,
    codeActions :=
      acc.codeActions ++ f.codeActions.filterMap (convCodeAction ds) }

/-- The Diagnostic branch of `Response.fromRaw`. -/
def fromRawDiagnosticReport (r : RawReport) : DiagnosticReportM :=
  r.files.foldl processFile ⟨[], []⟩

/-- A parsed text edit. -/
structure TextEditM where
  range : RawRange
  newText : String
  deriving DecidableEq, Repr

/-- The CodeAction branch of `Response.fromRaw`: all text edits of all
files, in order. -/
def fromRawCodeActionReport (r : RawReport) : List TextEditM :=
  (r.files.map (fun f => f.textEdits.map
    (fun e => TextEditM.mk e.range e.newContent))).flatten

/-- The Format branch of `Response.fromRaw`: the content of the last file
(`report.content` is overwritten on each iteration), `""` when empty. -/
def fromRawFormatReport (r : RawReport) : String :=
  r.files.foldl (fun _ f => f.content) ""

/-- The typed report payload of a response. -/
inductive ReportPayload where
  | diagnostic (r : DiagnosticReportM)
  | codeAction (edits : List TextEditM)
  | format (content : String)
  deriving DecidableEq, Repr

/-- A `Response`: the report type and the optional report. -/
structure ResponseM where
  rtype : ReportTypeM
  report : Option ReportPayload
  deriving DecidableEq, Repr

/-- `Response.empty`. -/
def responseEmpty (t : ReportTypeM) : ResponseM := ⟨t, none⟩

/-- `Response.fromRaw` after `JSON.parse`: `none` stands for the
empty raw string (which yields an empty response); otherwise the parsed
report is transformed per the requested type. -/
def fromRawParsed (t : ReportTypeM) (raw : Option RawReport) : ResponseM :=
  match raw with
  | none => responseEmpty t
  | some r =>
      match t with
      | .diagnostic => ⟨t, some (.diagnostic (fromRawDiagnosticReport r))⟩
      | .codeAction => ⟨t, some (.codeAction (fromRawCodeActionReport r))⟩
      | .format => ⟨t, some (.format (fromRawFormatReport r))⟩

theorem fromRawParsed_rtype (t : ReportTypeM) (raw : Option RawReport) :
    (fromRawParsed t raw).rtype = t := by
  cases raw with
  | none => rfl
  | some r => cases t <;> rfl

theorem foldl_processFile_diagnostics (files : List RawFile) :
    ∀ acc : DiagnosticReportM,
    (files.foldl processFile acc).diagnostics =
      acc.diagnostics ++
        ((files.map (fun f => f.diagnostics)).flatten).filterMap convDiagnostic := by
  induction files with
  | nil => intro acc; simp
  | cons f fs ih =>
      intro acc
      simp only [List.foldl_cons, List.map_cons, List.flatten_cons, List.filterMap_append,
        List.append_assoc]
      rw [ih]
      simp [processFile, List.append_assoc]

theorem length_filterMap_of_isSome {α β : Type} (g : α → Option β)
    (l : List α) (h : ∀ x ∈ l, (g x).isSome = true) :
    (l.filterMap g).length = l.length := by
  induction l with
  | nil => rfl
  | cons x xs ih =>
      have hx := h x (by simp)
      cases hg : g x with
      | none => rw [hg] at hx; simp at hx
      | some y =>
          simp only [List.filterMap_cons, hg, List.length_cons]
          rw [ih (fun z hz => h z (by simp [hz]))]

theorem mem_filterMap_convCodeAction (diags : List DiagnosticM)
    (acts : List RawCodeAction) (a : CodeActionM)
    (h : a ∈ acts.filterMap (convCodeAction diags)) :
    a.linked = diags.get? a.diagnostic ∧
    ∃ raw ∈ acts, raw.kind = "quickfix" ∧ raw.diagnostic = a.diagnostic := by
  rw [List.mem_filterMap] at h
  obtain ⟨raw, hmem, hconv⟩ := h
  unfold convCodeAction at hconv
  by_cases hk : raw.kind = "quickfix"
  · rw [if_pos hk] at hconv
    cases hconv
    exact ⟨rfl, raw, hmem, hk, rfl⟩
  · rw [if_neg hk] at hconv
    cases hconv

/-- C6: for every raw Diagnostic report, the parsed diagnostics are exactly
the raw diagnostics in insertion order with the unrecognized severities
dropped (never defaulted); each kept quickfix action links the diagnostic
stored at the action's raw `diagnostic` index; and for a (single-file)
output whose findings all carry a recognized severity, the diagnostics list
has the same length as the raw findings list and — when the raw actions
index into the findings — every derived quick-fix action references a valid
index into that list. -/
theorem response_fromRaw_diagnostic_order_and_linking (f : RawFile) :
    (∀ r : RawReport, (fromRawDiagnosticReport r).diagnostics =
      ((r.files.map (fun fl => fl.diagnostics)).flatten).filterMap
        convDiagnostic) ∧
    (∀ d : RawDiagnostic, d.severity ≠ 0 → d.severity ≠ 1 →
      convDiagnostic d = none) ∧
    (∀ a ∈ (fromRawDiagnosticReport ⟨[f]⟩).codeActions,
      a.linked =
        (fromRawDiagnosticReport ⟨[f]⟩).diagnostics.get? a.diagnostic) ∧
    ((∀ d ∈ f.diagnostics, d.severity = 0 ∨ d.severity = 1) →
      (fromRawDiagnosticReport ⟨[f]⟩).diagnostics.length =
        f.diagnostics.length ∧
      ((∀ a ∈ f.codeActions, a.kind = "quickfix" →
          a.diagnostic < f.diagnostics.length) →
        ∀ a ∈ (fromRawDiagnosticReport ⟨[f]⟩).codeActions,
          a.diagnostic < (fromRawDiagnosticReport ⟨[f]⟩).diagnostics.length ∧
          a.linked.isSome = true)) := by
  have hsingle : fromRawDiagnosticReport ⟨[f]⟩ =
      { diagnostics := f.diagnostics.filterMap convDiagnostic,
        codeActions := f.codeActions.filterMap
          (convCodeAction (f.diagnostics.filterMap convDiagnostic)) } := by
    simp [fromRawDiagnosticReport, processFile]
  refine ⟨?_, ?_, ?_, ?_⟩
  · intro r
    rw [fromRawDiagnosticReport, foldl_processFile_diagnostics]
    rfl
  · intro d h0 h1
    unfold convDiagnostic
    cases hs : d.severity with
    | ofNat n =>
        cases n with
        | zero => exact absurd hs h0
        | succ m =>
            cases m with
            | zero => exact absurd hs h1
            | succ m' => rfl
    | negSucc n => rfl
  · intro a ha
    rw [hsingle] at ha ⊢
    exact (mem_filterMap_convCodeAction _ f.codeActions a ha).1
  · intro hrec
    have hlen : (fromRawDiagnosticReport ⟨[f]⟩).diagnostics.length =
        f.diagnostics.length := by
      rw [hsingle]
      refine length_filterMap_of_isSome convDiagnostic f.diagnostics ?_
      intro d hd
      rcases hrec d hd with h | h <;> simp [convDiagnostic, h]
    refine ⟨hlen, ?_⟩
    intro hidx a ha
    rw [hsingle] at ha
    obtain ⟨hlink, raw, hmem, hkind, hdiag⟩ :=
      mem_filterMap_convCodeAction _ f.codeActions a ha
    have hlt : a.diagnostic < f.diagnostics.length := by
      rw [← hdiag]
      exact hidx raw hmem hkind
    refine ⟨by rw [hlen]; exact hlt, ?_⟩
    have hlen' : (List.filterMap convDiagnostic f.diagnostics).length =
        f.diagnostics.length := by
      rw [hsingle] at hlen
      exact hlen
    rw [hlink]
    cases hg : (List.filterMap convDiagnostic f.diagnostics).get? a.diagnostic
      with
    | none =>
        rw [List.get?_eq_none] at hg
        omega
    | some d => rfl

/-- The mocked raw report of the repository's `Response` test: one error
finding and one quickfix action referencing index 0. -/
def c6File : RawFile :=
  { filename := "the/test.php",
    diagnostics := [⟨⟨0, 0, 0, 1⟩, 0, "TestM", "Test", "PHP_CodeSniffer"⟩],
    codeActions := [⟨"Fix Test", "quickfix", 0⟩],
    textEdits := [],
    content := "" }

/-- Witness for C6: the mocked single-file output of the repository's
response test — one error finding and one quickfix referencing index 0. -/
theorem response_fromRaw_diagnostic_order_and_linking_witness :
    (fromRawDiagnosticReport ⟨[c6File]⟩).diagnostics.length = 1 ∧
    ∀ a ∈ (fromRawDiagnosticReport ⟨[c6File]⟩).codeActions,
      a.diagnostic < 1 ∧ a.linked.isSome = true := by
  have h := response_fromRaw_diagnostic_order_and_linking c6File
  have hrec : ∀ d ∈ c6File.diagnostics, d.severity = 0 ∨ d.severity = 1 := by
    intro d hd
    simp only [c6File, List.mem_singleton] at hd
    rw [hd]
    exact Or.inl rfl
  have hidx : ∀ a ∈ c6File.codeActions, a.kind = "quickfix" →
      a.diagnostic < c6File.diagnostics.length := by
    intro a ha _
    simp only [c6File, List.mem_singleton] at ha
    rw [ha]
    decide
  obtain ⟨hlen, hvalid⟩ := h.2.2.2 hrec
  refine ⟨by rw [hlen]; decide, ?_⟩
  intro a ha
  have hv := hvalid hidx a ha
  have h1 : c6File.diagnostics.length = 1 := by decide
  rw [hlen, h1] at hv
  exact hv

/-! ## Worker (`src/phpcs-report/worker.ts`)

The worker builds the PHPCS invocation from the request, spawns the
process, and delivers the outcome from the process `close` and `error`
events.  The filesystem-derived report path is abstracted as a string
parameter. -/

/-- JS line-terminator characters, which `.` in a regex does not match. -/
def isLineTerm (c : Char) : Bool :=
  c = '\n' || c = '\r' || c = '\u2028' || c = '\u2029'

/-- The index of the last closing brace of a character list, if any. -/
def lastCloseBrace : List Char → Option Nat
  | [] => none
  | c :: cs =>
      match lastCloseBrace cs with
      | some j => some (j + 1)
      | none => if c = '\x7d' then some 0 else none

/-- One attempt of the match `^[^\x7b]+(.+\x7d).*` with the leading
`[^\x7b]+` consuming exactly `k` characters: the capture must lie on the
line starting at position `k`, end at that line's last `\x7d`, and contain
at least one character before it; on success the result is the
replacement — the capture followed by the text after the match (`.*`
consumes the rest of that line only). -/
def tryMatchAt (s : List Char) (k : Nat) : Option (List Char) :=
  let line := (s.drop k).takeWhile (fun c => !isLineTerm c)
  match lastCloseBrace line with
  | some j =>
      if 1 ≤ j then some (line.take (j + 1) ++ s.drop (k + line.length))
      else none
  | none => none

/-- Backtracking of the greedy `[^\x7b]+`: try `k = L, L-1, ..., 1` and
return the input unchanged when no start position matches. -/
def trimGoDown (s : List Char) : Nat → List Char
  | 0 => s
  | k + 1 =>
      match tryMatchAt s (k + 1) with
      | some r => r
      | none => trimGoDown s k

/-- `pendingReport.replace(/^[^\x7b]+(.+\x7d).*\x2f, '$1')` of
`createProcess`: the JS `replace` with a non-global regex substitutes the
first match only and leaves the input unchanged when the regex does not
match — in particular whenever the input starts with `\x7b`, because
`[^\x7b]+` requires at least one leading non-brace character. -/
def trimReportL (s : List Char) : List Char :=
  let L := (s.takeWhile (fun c => c != '\x7b')).length
  if L = 0 then s else trimGoDown s L

/-- String wrapper of the report-trimming step. -/
def trimReport (s : String) : String := ⟨trimReportL s.data⟩

/-- The quote characters the worker passes to `split-string`
(`supportedQuotes = ["'", '"']`). -/
def supportedQuotes : List Char := ['\'', '"']

/-- Scanner state of the `split-string` model: the currently open quote
character, the reversed current token, and the remaining input. -/
def splitQuotedGo (quotes : List Char) :
    Option Char → List Char → List Char → List (List Char)
  | _, acc, [] => [acc.reverse]
  | some q, acc, c :: rest =>
      if c = q then splitQuotedGo quotes none (c :: acc) rest
      else splitQuotedGo quotes (some q) (c :: acc) rest
  | none, acc, c :: rest =>
      if c = ' ' then acc.reverse :: splitQuotedGo quotes none [] rest
      else if quotes.contains c then splitQuotedGo quotes (some c) (c :: acc) rest
      else splitQuotedGo quotes none (c :: acc) rest

/-- Model of the `split-string` dependency for the options `worker.ts`
uses (`separator: ' '`, the given `quotes`, `brackets: false`): split on
spaces, except that a segment opened by a quote character runs to the
matching closing quote (quote characters are kept in the output); an
unclosed quote runs to the end of the input.  Backslash escaping is not
modelled; no input this development evaluates contains a backslash. -/
def splitQuoted (quotes : List Char) (s : List Char) : List (List Char) :=
  splitQuotedGo quotes none [] s

/-- The quote-trimming loop of `createProcess`: a segment whose first
character is a quote from `quotes` and whose last character matches it is
stripped of both (`segment.slice(1, -1)`); other segments are unchanged. -/
def trimSegmentWith (quotes : List Char) (seg : List Char) : List Char :=
  match seg with
  | [] => seg
  | c :: _ =>
      if quotes.contains c && (seg.getLast? == some c) then
        (seg.drop 1).dropLast
      else seg

/-- The executable tokenization of `Worker.createProcess`: split the
configured executable on spaces respecting single- and double-quoted
segments, strip matching outer quotes from every token, and take the first
token as the program and the rest as prefix arguments; the thrown
`'No executable was given.'` errors are `Except.error`. -/
def parseExecutable (exe : String) : Except String (String × List String) :=
  let parsed := (splitQuoted supportedQuotes exe.data).map
    (trimSegmentWith supportedQuotes)
  match parsed with
  | [] => .error "No executable was given."
  | prog :: args =>
      if prog.isEmpty then .error "No executable was given."
      else .ok (⟨prog⟩, args.map (fun a => (⟨a⟩ : String)))

/-- The backtick character. -/
def backtickChar : Char := Char.ofNat 96

/-- Modelled from the spec's words, for comparison with the source (C7):
the spec's §4.4 tokenization additionally respects backtick-delimited
segments. -/
def specQuotes : List Char := ['\'', '"', backtickChar]

/-- Modelled from the spec's words, for comparison with the source (C7):
`parseExecutable` with backticks also accepted as quotes. -/
def specParseExecutable (exe : String) : Except String (String × List String) :=
  let parsed := (splitQuoted specQuotes exe.data).map
    (trimSegmentWith specQuotes)
  match parsed with
  | [] => .error "No executable was given."
  | prog :: args =>
      if prog.isEmpty then .error "No executable was given."
      else .ok (⟨prog⟩, args.map (fun a => (⟨a⟩ : String)))

/-- The fixed arguments of the PHPCS invocation (`processArguments`),
parameterized by the computed report path. -/
def baseArgs (report : String) : List String :=
  ["-q", "--report=" ++ report,
   "--runtime-set", "ignore_warnings_on_exit", "1",
   "--runtime-set", "ignore_errors_on_exit", "1"]

/-- The program and argument list handed to `spawn`. -/
structure SpawnSpec where
  program : String
  args : List String
  deriving DecidableEq, Repr

/-- The `--standard` flag: appended only when the standard is truthy
(neither `null` nor the empty string). -/
def standardArgs (standard : Option String) : List String :=
  match standard with
  | some s => if s ≠ "" then ["--standard=" ++ s] else []
  | none => []

/-- The invocation built by `Worker.createProcess`: prefix arguments from
the executable option are unshifted to the front of the fixed arguments,
the `--standard` flag is appended when truthy, and the trailing `-` makes
PHPCS read from STDIN. -/
def createProcessSpec (report : String) (standard : Option String)
    (executable : String) : Except String SpawnSpec :=
  match parseExecutable executable with
  | .error e => .error e
  | .ok (prog, pre) =>
      .ok ⟨prog, pre ++ baseArgs report ++ standardArgs standard ++ ["-"]⟩

/-- The capture prefix of the `PHPCSError` constructor's pattern. -/
def captureLit : List Char := "The extension".data

/-- The full literal the constructor's pattern searches for. -/
def matchLit : List Char :=
  "Uncaught InvalidArgumentException: ".data ++ captureLit

/-- The leftmost match of
`/Uncaught InvalidArgumentException: (The extension[^)]+)/`: the first
position where the literal occurs followed by at least one character other
than `)`; the capture runs from `The extension` through that run. -/
def stripSearch : List Char → Option (List Char)
  | [] => none
  | c :: cs =>
      if matchLit.isPrefixOf (c :: cs) then
        let run := ((c :: cs).drop matchLit.length).takeWhile
          (fun ch => ch != ')')
        if 1 ≤ run.length then some (captureLit ++ run)
        else stripSearch cs
      else stripSearch cs

/-- The error-output post-processing of the `PHPCSError` constructor. -/
def phpcsStrip (err : String) : String :=
  match stripSearch err.data with
  | some r => ⟨r⟩
  | none => err

/-- A `PHPCSError` value: the captured output and the (post-processed)
error output. -/
structure PHPCSErrorM where
  output : String
  errorOutput : String
  deriving DecidableEq, Repr

/-- The `PHPCSError` constructor. -/
def mkPHPCSError (output errorOutput : String) : PHPCSErrorM :=
  ⟨output, phpcsStrip errorOutput⟩

/-- JS `String.prototype.includes` on character lists. -/
def listIncludes (pat : List Char) : List Char → Bool
  | [] => pat.isPrefixOf []
  | c :: cs => pat.isPrefixOf (c :: cs) || listIncludes pat cs

/-- JS `String.prototype.includes`. -/
def strIncludes (s pat : String) : Bool := listIncludes pat.data s.data

/-- The message of the executable-not-found rejection. -/
def enoentMessage (executable : String) : String :=
  "The PHPCS executable \"" ++ executable ++ "\" could not be found."

/-- The `error` handler of `Worker.createProcess`: an error message
containing `ENOENT` yields the executable-not-found `PHPCSError`, anything
else the failed-to-start `PHPCSError`. -/
def processErrorReject (executable errMessage : String) : PHPCSErrorM :=
  if strIncludes errMessage "ENOENT" then
    mkPHPCSError "" (enoentMessage executable)
  else mkPHPCSError "" "The PHPCS process failed to start."

/-- The outcome the `close` handler of `Worker.createProcess` delivers to
the execute promise. -/
inductive CloseOutcome where
  /-- `handledProcessError` was set: the `error` handler already rejected,
  the `close` handler does nothing. -/
  | alreadyHandled
  /-- Rejection with vscode's `CancellationError`. -/
  | cancelled
  /-- Rejection with a `PHPCSError` built from the captured streams. -/
  | toolError (e : PHPCSErrorM)
  /-- Resolution with `Response.fromRaw type payload`, `payload` being the
  trimmed stdout. -/
  | parsed (t : ReportTypeM) (payload : String)
  deriving DecidableEq, Repr

/-- The `close` handler of `Worker.createProcess`: skip when a process
error was already handled; reject with a Cancellation error when the
tracked token is cancelled; reject with a `PHPCSError` carrying the
captured stdout and stderr on a non-zero exit code; otherwise trim the
report and resolve with the parsed response. -/
def closeHandler (t : ReportTypeM) (handledProcessError : Bool)
    (cancelRequested : Bool) (code : Int) (stdout stderr : String) :
    CloseOutcome :=
  if handledProcessError then .alreadyHandled
  else if cancelRequested then .cancelled
  else if code != 0 then .toolError (mkPHPCSError stdout stderr)
  else .parsed t (trimReport stdout)

/-- The process options of a `Request<T>` (`request.options`); a `null`
standard is the disabled sentinel. -/
structure RequestOptionsM where
  standard : Option String
  executable : String
  autoloadPHPCSIntegration : Bool
  deriving DecidableEq, Repr

/-- A `Request<T>` as consumed by `Worker.execute`. -/
structure RequestM where
  rtype : ReportTypeM
  workingDirectory : String
  documentPath : String
  documentContent : String
  options : RequestOptionsM
  deriving DecidableEq, Repr

/-- The observable result of the synchronous part of `Worker.execute`. -/
inductive ExecStart where
  /-- `execute` on an active worker throws
  `'This worker is already active.'`. -/
  | alreadyActiveError
  /-- The fast path: the promise resolves at once with the response. -/
  | immediate (resp : ResponseM)
  /-- A process is spawned with the given specification. -/
  | spawned (spec : SpawnSpec)
  /-- `createProcess` threw before spawning. -/
  | startThrow (msg : String)
  deriving DecidableEq, Repr

/-- The observable side effects of the synchronous part of
`Worker.execute`. -/
structure ExecEffects where
  /-- Number of `onCompletion` notifications fired. -/
  completions : Nat
  /-- Number of processes spawned. -/
  spawns : Nat
  /-- Whether the worker is active when the call returns. -/
  activeAfter : Bool
  deriving DecidableEq, Repr

/-- Result of the synchronous part of `Worker.execute`. -/
structure ExecResult where
  start : ExecStart
  effects : ExecEffects
  deriving DecidableEq, Repr

/-- The synchronous part of `Worker.execute`: fail fast when active;
resolve immediately with an empty response — notifying completion without
spawning and staying inactive — when the standard is the `null` sentinel or
the document content is empty; otherwise spawn the process per
`createProcessSpec` and become active.  `report` abstracts the
filesystem-derived report path. -/
def workerExecute (report : String) (isActive : Bool) (req : RequestM) :
    ExecResult :=
  if isActive then ⟨.alreadyActiveError, ⟨0, 0, true⟩⟩
  else if req.options.standard == none then
    ⟨.immediate (responseEmpty req.rtype), ⟨1, 0, false⟩⟩
  else if req.documentContent.length == 0 then
    ⟨.immediate (responseEmpty req.rtype), ⟨1, 0, false⟩⟩
  else
    match createProcessSpec report req.options.standard
        req.options.executable with
    | .error msg => ⟨.startThrow msg, ⟨0, 0, false⟩⟩
    | .ok spec => ⟨.spawned spec, ⟨0, 1, true⟩⟩

theorem workerExecute_spawns_le_one (report : String) (isActive : Bool)
    (req : RequestM) :
    (workerExecute report isActive req).effects.spawns ≤ 1 := by
  unfold workerExecute
  split
  · exact Nat.zero_le 1
  · split
    · exact Nat.zero_le 1
    · split
      · exact Nat.zero_le 1
      · split
        · exact Nat.zero_le 1
        · exact Nat.le_refl 1

/-- C4: for an execution whose process emitted no spawn error, the `close`
handler rejects with a Cancellation error whenever the tracked token is
cancelled at close time, regardless of exit code and captured output;
otherwise a non-zero exit code rejects with the tool error built from the
captured stdout and stderr (whose `output` field is the raw stdout, and
whose `errorOutput` field is the raw stderr whenever the constructor's
InvalidArgumentException pattern does not occur in it); otherwise the
promise resolves with the parsed, typed response over the trimmed
output. -/
theorem worker_close_outcome (t : ReportTypeM) (code : Int)
    (stdout stderr : String) :
    closeHandler t false true code stdout stderr = .cancelled ∧
    (code ≠ 0 →
      closeHandler t false false code stdout stderr =
        .toolError (mkPHPCSError stdout stderr) ∧
      (mkPHPCSError stdout stderr).output = stdout ∧
      (stripSearch stderr.data = none →
        (mkPHPCSError stdout stderr).errorOutput = stderr)) ∧
    (code = 0 → closeHandler t false false code stdout stderr =
      .parsed t (trimReport stdout)) ∧
    (∀ raw, (fromRawParsed t raw).rtype = t) := by
  refine ⟨rfl, ?_, ?_, fromRawParsed_rtype t⟩
  · intro hc
    refine ⟨?_, rfl, ?_⟩
    · unfold closeHandler
      rw [if_neg (by simp), if_neg (by simp),
        if_pos (by simpa using hc)]
    · intro hs
      simp [mkPHPCSError, phpcsStrip, hs]
  · intro hc
    unfold closeHandler
    rw [if_neg (by simp), if_neg (by simp), if_neg (by simp [hc])]

/-- Witness for C4 at exit codes `2` and `0`. -/
theorem worker_close_outcome_witness :
    closeHandler .diagnostic false true 2 "o" "e" = .cancelled ∧
    closeHandler .diagnostic false false 2 "o" "e" =
      .toolError (mkPHPCSError "o" "e") ∧
    closeHandler .diagnostic false false 0 "o" "e" =
      .parsed .diagnostic (trimReport "o") := by
  have h2 := worker_close_outcome .diagnostic 2 "o" "e"
  have h0 := worker_close_outcome .diagnostic 0 "o" "e"
  exact ⟨h2.1, (h2.2.1 (by decide)).1, h0.2.2.1 rfl⟩

theorem listIncludes_of_infix (pat a b : List Char) :
    listIncludes pat (a ++ pat ++ b) = true := by
  induction a with
  | nil =>
      cases hpb : pat ++ b with
      | nil =>
          obtain ⟨hp, hb⟩ := List.append_eq_nil.mp hpb
          subst hp
          subst hb
          rfl
      | cons c cs =>
          have hpre : pat.isPrefixOf (pat ++ b) = true :=
            List.isPrefixOf_iff_prefix.mpr (List.prefix_append pat b)
          simp only [List.nil_append, hpb, listIncludes]
          rw [← hpb, hpre]
          rfl
  | cons x xs ih =>
      simp only [List.cons_append, listIncludes, List.append_eq, ih,
        Bool.or_true]

/-- C9: a spawn failure with an `ENOENT` message rejects with the specific
executable-not-found `PHPCSError`: empty captured output and an error
message naming the missing executable, different from the generic
failed-to-start message; the `close` handler does nothing after a handled
spawn error, so no generic non-zero-exit tool error is also delivered for
that execution; and `execute` never spawns more than one process per call
(no automatic retry). -/
theorem worker_spawn_failure_error (executable errMessage : String)
    (h : strIncludes errMessage "ENOENT" = true)
    (hno : stripSearch (enoentMessage executable).data = none) :
    processErrorReject executable errMessage =
      ⟨"", enoentMessage executable⟩ ∧
    strIncludes (processErrorReject executable errMessage).errorOutput
      executable = true ∧
    (processErrorReject executable errMessage).errorOutput ≠
      (mkPHPCSError "" "The PHPCS process failed to start.").errorOutput ∧
    (∀ t cancelRequested code stdout stderr,
      closeHandler t true cancelRequested code stdout stderr =
        .alreadyHandled) ∧
    (∀ report isActive req,
      (workerExecute report isActive req).effects.spawns ≤ 1) := by
  have heq : processErrorReject executable errMessage =
      ⟨"", enoentMessage executable⟩ := by
    unfold processErrorReject
    rw [if_pos h]
    unfold mkPHPCSError phpcsStrip
    rw [hno]
  have hdata : (enoentMessage executable).data =
      "The PHPCS executable \"".data ++ executable.data ++
        "\" could not be found.".data := by
    unfold enoentMessage
    rw [String.data_append, String.data_append]
  refine ⟨heq, ?_, ?_,
    fun t cancelRequested code stdout stderr => rfl,
    workerExecute_spawns_le_one⟩
  · rw [heq]
    unfold strIncludes
    rw [hdata]
    exact listIncludes_of_infix executable.data _ _
  · rw [heq]
    have hfail : phpcsStrip "The PHPCS process failed to start." =
        "The PHPCS process failed to start." := by decide
    show enoentMessage executable ≠
      phpcsStrip "The PHPCS process failed to start."
    rw [hfail]
    intro hcontra
    have hlen := congrArg (fun s => s.data.length) hcontra
    dsimp only at hlen
    rw [hdata] at hlen
    have h1 : "The PHPCS executable \"".data.length = 22 := by decide
    have h2 : "\" could not be found.".data.length = 21 := by decide
    have h3 : "The PHPCS process failed to start.".data.length = 34 := by
      decide
    rw [List.length_append, List.length_append, h1, h2, h3] at hlen
    omega

/-- Witness for C9 with the executable `phpcs` and a typical Node `ENOENT`
error message. -/
theorem worker_spawn_failure_error_witness :
    strIncludes "spawn phpcs ENOENT" "ENOENT" = true ∧
    processErrorReject "phpcs" "spawn phpcs ENOENT" =
      ⟨"", enoentMessage "phpcs"⟩ ∧
    strIncludes (processErrorReject "phpcs" "spawn phpcs ENOENT").errorOutput
      "phpcs" = true := by
  have h := worker_spawn_failure_error "phpcs" "spawn phpcs ENOENT"
    (by decide) (by decide)
  exact ⟨by decide, h.1, h.2.1⟩

/-- C5: with the disabled (`null`) standard sentinel or empty document
content, `execute` on an idle worker resolves immediately with the empty
response of the request's report type (no report payload), fires the
completion/availability notification exactly once, spawns no process, and
leaves the worker inactive. -/
theorem worker_execute_fast_path (report : String) (req : RequestM)
    (h : req.options.standard = none ∨ req.documentContent = "") :
    workerExecute report false req =
      ⟨.immediate (responseEmpty req.rtype), ⟨1, 0, false⟩⟩ ∧
    (responseEmpty req.rtype).report = none ∧
    (responseEmpty req.rtype).rtype = req.rtype := by
  refine ⟨?_, rfl, rfl⟩
  unfold workerExecute
  rw [if_neg (by simp)]
  rcases h with h | h
  · rw [if_pos (by simp [h])]
  · by_cases hs : req.options.standard == none
    · rw [if_pos hs]
    · rw [if_neg hs, if_pos (by simp [h])]

/-- A concrete request with the disabled sentinel for the C5 witness. -/
def c5Req : RequestM :=
  { rtype := .format, workingDirectory := "/w", documentPath := "a.php",
    documentContent := "x", options := ⟨none, "phpcs", false⟩ }

/-- Witness for C5 at a concrete disabled-sentinel request. -/
theorem worker_execute_fast_path_witness :
    workerExecute "R" false c5Req =
      ⟨.immediate (responseEmpty .format), ⟨1, 0, false⟩⟩ := by
  exact (worker_execute_fast_path "R" c5Req (Or.inl rfl)).1

/-- The backtick-quoted executable option of the C7 counterexample. -/
def c7Exe : String := "`php a` -v"

/-- Counterexample to C7 as stated: the worker does not respect
backtick-delimited segments — with the configured executable
```php a` -v`` (a backtick-quoted program followed by an argument) the
split happens inside the backtick segment, whereas the tokenizer the spec
describes keeps it together and strips the backticks. -/
theorem worker_executable_backtick_not_respected :
    parseExecutable c7Exe = .ok ("`php", ["a`", "-v"]) ∧
    specParseExecutable c7Exe = .ok ("php a", ["-v"]) ∧
    parseExecutable c7Exe ≠ specParseExecutable c7Exe := by
  exact ⟨by decide, by decide, by decide⟩

/-- C7 (amended): the worker tokenizes the configured executable on spaces
while respecting segments quoted by single or double quotes (backticks are
not treated as quote characters), strips matching outer quotes from each
token; the first resulting token becomes the program to spawn and every
remaining token is prepended to the process argument list ahead of the
fixed PHPCS arguments. -/
theorem worker_executable_tokenization (report : String)
    (standard : Option String) (exe prog : String) (pre : List String)
    (h : parseExecutable exe = .ok (prog, pre)) :
    createProcessSpec report standard exe =
      .ok ⟨prog, pre ++ baseArgs report ++ standardArgs standard ++ ["-"]⟩ ∧
    ∃ t0 ts, (splitQuoted supportedQuotes exe.data).map
        (trimSegmentWith supportedQuotes) = t0 :: ts ∧
      prog = ⟨t0⟩ ∧ pre = ts.map (fun a => (⟨a⟩ : String)) := by
  constructor
  · simp [createProcessSpec, h]
  · unfold parseExecutable at h
    cases hp : (splitQuoted supportedQuotes exe.data).map
        (trimSegmentWith supportedQuotes) with
    | nil => rw [hp] at h; cases h
    | cons t0 ts =>
        rw [hp] at h
        simp only [] at h
        by_cases hemp : t0.isEmpty
        · rw [if_pos hemp] at h; cases h
        · rw [if_neg hemp] at h
          cases h
          exact ⟨t0, ts, rfl, rfl, rfl⟩

/-- Witness for C7's amended theorem: a double-quoted segment with a space
stays one token, loses its quotes, and lands in front of the fixed
arguments. -/
theorem worker_executable_tokenization_witness :
    parseExecutable "docker run \"my image\" php" =
      .ok ("docker", ["run", "my image", "php"]) ∧
    createProcessSpec "R" (some "PSR12") "docker run \"my image\" php" =
      .ok ⟨"docker", ["run", "my image", "php"] ++ baseArgs "R" ++
        standardArgs (some "PSR12") ++ ["-"]⟩ := by
  have hp : parseExecutable "docker run \"my image\" php" =
      .ok ("docker", ["run", "my image", "php"]) := by decide
  exact ⟨hp, (worker_executable_tokenization "R" (some "PSR12") _ _ _ hp).1⟩

/-! ## Report trimming (C8)

`pendingReport.replace(/^[^\x7b]+(.+\x7d).*\x2f, '$1')` only matches when
at least one non-brace character precedes the JSON object: a payload that
starts with the object itself is left unchanged, so a trailing-noise-only
payload reaches `JSON.parse` with its noise intact. -/

theorem takeWhile_append_of_all {p : Char → Bool} (P rest : List Char)
    (h : ∀ c ∈ P, p c = true) :
    (P ++ rest).takeWhile p = P ++ rest.takeWhile p := by
  induction P with
  | nil => rfl
  | cons c cs ih =>
      have hc := h c (by simp)
      have ih' := ih (fun x hx => h x (by simp [hx]))
      simp [List.takeWhile_cons, hc, ih']

theorem takeWhile_all {p : Char → Bool} (l : List Char)
    (h : ∀ c ∈ l, p c = true) : l.takeWhile p = l := by
  have := takeWhile_append_of_all l [] h
  simpa using this

theorem lastCloseBrace_none (T : List Char)
    (h : ∀ c ∈ T, c ≠ '\x7d') : lastCloseBrace T = none := by
  induction T with
  | nil => rfl
  | cons c cs ih =>
      simp only [lastCloseBrace, ih (fun x hx => h x (by simp [hx]))]
      rw [if_neg (h c (by simp))]

theorem lastCloseBrace_append_none (xs ys : List Char)
    (h : lastCloseBrace ys = none) :
    lastCloseBrace (xs ++ ys) = lastCloseBrace xs := by
  induction xs with
  | nil => simpa using h
  | cons c cs ih =>
      simp only [List.cons_append, lastCloseBrace, List.append_eq, ih]

theorem lastCloseBrace_getLast (O : List Char) (hne : O ≠ [])
    (hl : O.getLast? = some '\x7d') :
    lastCloseBrace O = some (O.length - 1) := by
  induction O with
  | nil => exact absurd rfl hne
  | cons c cs ih =>
      cases cs with
      | nil =>
          simp only [List.getLast?_singleton, Option.some.injEq] at hl
          simp [lastCloseBrace, hl]
      | cons d ds =>
          have hl' : (d :: ds).getLast? = some '\x7d' := by
            rw [List.getLast?_cons_cons] at hl
            exact hl
          have hrec := ih (by simp) hl'
          show (match lastCloseBrace (d :: ds) with
            | some j => some (j + 1)
            | none => if c = '\x7d' then some 0 else none) =
              some ((c :: d :: ds).length - 1)
          rw [hrec]
          simp only [List.length_cons]
          congr 1

/-- Counterexample to C8 as stated: the payload `\x7b"a":1\x7d x` is a
single JSON object followed by non-JSON suffix noise and no prefix noise;
the trimming step leaves it unchanged (the pattern requires a nonempty
prefix), so the string handed to `JSON.parse` still carries the suffix and
is not the JSON object. -/
theorem worker_trim_misses_suffix_without_prefix :
    trimReport "\x7b\"a\":1\x7d x" = "\x7b\"a\":1\x7d x" ∧
    "\x7b\"a\":1\x7d x" ≠ "\x7b\"a\":1\x7d" := by
  exact ⟨by decide, by decide⟩

/-- C8 (amended): the trimming step hands `JSON.parse` exactly the JSON
object when the payload has a *nonempty* non-JSON prefix containing no
opening brace, the object itself is brace-terminated and free of line
terminators, and the suffix noise contains no closing brace and no line
terminator; a payload that starts with the object itself is passed through
unchanged, so suffix noise is stripped only in the presence of prefix
noise. -/
theorem worker_trim_strips_noise (P O T : List Char)
    (hPne : P ≠ [])
    (hPbrace : ∀ c ∈ P, c ≠ '\x7b')
    (hOhead : O.head? = some '\x7b')
    (hOlen : 2 ≤ O.length)
    (hOlast : O.getLast? = some '\x7d')
    (hOline : ∀ c ∈ O, isLineTerm c = false)
    (hTbrace : ∀ c ∈ T, c ≠ '\x7d')
    (hTline : ∀ c ∈ T, isLineTerm c = false) :
    trimReportL (P ++ O ++ T) = O ∧
    trimReport ⟨P ++ O ++ T⟩ = String.mk O ∧
    (∀ s : List Char, s.head? = some '\x7b' → trimReportL s = s) := by
  have hOne : O ≠ [] := by
    intro hO
    rw [hO] at hOlen
    simp at hOlen
  obtain ⟨o, O', hO⟩ : ∃ o O', O = o :: O' := by
    cases O with
    | nil => exact absurd rfl hOne
    | cons o O' => exact ⟨o, O', rfl⟩
  have ho : o = '\x7b' := by
    rw [hO] at hOhead
    simpa using hOhead
  have hnoPre : ∀ s : List Char, s.head? = some '\x7b' → trimReportL s = s := by
    intro s hs
    cases s with
    | nil => simp at hs
    | cons c cs =>
        have hc : c = '\x7b' := by simpa using hs
        unfold trimReportL
        rw [hc]
        simp [List.takeWhile_cons]
  have hL : ((P ++ O ++ T).takeWhile (fun c => c != '\x7b')).length
      = P.length := by
    rw [List.append_assoc, takeWhile_append_of_all P (O ++ T)
      (fun c hc => by simpa [bne] using hPbrace c hc)]
    have hOT : (O ++ T).takeWhile (fun c => c != '\x7b') = [] := by
      rw [hO, ho]
      simp [List.takeWhile_cons, bne]
    rw [hOT]
    simp
  have hdrop : (P ++ O ++ T).drop P.length = O ++ T := by
    rw [List.append_assoc]
    exact List.drop_left P (O ++ T)
  have hline : ((P ++ O ++ T).drop P.length).takeWhile
      (fun c => !isLineTerm c) = O ++ T := by
    rw [hdrop]
    refine takeWhile_all (O ++ T) ?_
    intro c hc
    rcases List.mem_append.mp hc with hc | hc
    · simp [hOline c hc]
    · simp [hTline c hc]
  have hlcb : lastCloseBrace (O ++ T) = some (O.length - 1) := by
    rw [lastCloseBrace_append_none O T (lastCloseBrace_none T hTbrace)]
    exact lastCloseBrace_getLast O hOne hOlast
  have hj : 1 ≤ O.length - 1 := by
    omega
  have htry : tryMatchAt (P ++ O ++ T) P.length = some O := by
    unfold tryMatchAt
    simp only [hline, hlcb]
    rw [if_pos hj]
    have h1 : O.length - 1 + 1 = O.length := by omega
    rw [h1, List.take_left]
    have h2 : (P ++ O ++ T).drop (P.length + (O ++ T).length) = [] := by
      refine List.drop_eq_nil_of_le ?_
      simp [List.length_append]
    rw [h2, List.append_nil]
  have hmain : trimReportL (P ++ O ++ T) = O := by
    unfold trimReportL
    simp only [hL]
    have hlen0 : P.length ≠ 0 := by
      intro hz
      exact hPne (List.length_eq_zero.mp hz)
    rw [if_neg hlen0]
    obtain ⟨n, hn⟩ := Nat.exists_eq_succ_of_ne_zero hlen0
    rw [hn]
    rw [hn] at htry
    unfold trimGoDown
    rw [htry]
  refine ⟨hmain, ?_, hnoPre⟩
  show String.mk (trimReportL (String.mk (P ++ O ++ T)).data) = String.mk O
  have hdata : (String.mk (P ++ O ++ T)).data = P ++ O ++ T := rfl
  rw [hdata, hmain]

/-- Witness for C8's amended theorem: noise-wrapped payload
`note: \x7b"a":1\x7d done` trims to exactly `\x7b"a":1\x7d`. -/
theorem worker_trim_strips_noise_witness :
    trimReport "note: \x7b\"a\":1\x7d done" = "\x7b\"a\":1\x7d" := by
  have h := worker_trim_strips_noise "note: ".data "\x7b\"a\":1\x7d".data
    " done".data (by decide) (by decide) (by decide) (by decide)
    (by decide) (by decide) (by decide) (by decide)
  have hdata : ("note: \x7b\"a\":1\x7d done" : String).data =
      "note: ".data ++ "\x7b\"a\":1\x7d".data ++ " done".data := by decide
  have h2 := h.1
  unfold trimReport
  rw [hdata, h2]

end PhpcsSpec
